import Mathlib

/-!
Verification of the Parsley tree-sitter external scanner
(src/contrib/tree-sitter-parsley/src/scanner.c).

The scanner is embedded shallowly: the input is a `List Char` starting at the
scan position, the cursor is a position `Nat`, and the tree-sitter lexer
effects (`mark_end`, `result_symbol`, the handled/declined return value) are
collected in a `ScanOut` record.  The character loop of `scan_raw_text` is a
fuel-indexed structural recursion (`scanLoopF`); the fuel only bounds the
loop, which consumes at least one character per iteration, so any fuel larger
than the input length gives the same result (`scanLoopF_fuel`).
-/

set_option maxHeartbeats 1000000

/-- Token types the external scanner can produce (enum TokenType,
scanner.c lines 21-25). -/
inductive TokenType where
  | rawText
  | rawTextInterpolationStart
  | errorSentinel
  deriving DecidableEq

/-- Persisted scanner state (struct Scanner, scanner.c lines 28-31):
a single byte `raw_text_mode` (0 = not in raw text, 1 = style, 2 = script). -/
structure Scanner where
  raw_text_mode : Fin 256
  deriving DecidableEq

/-- tree_sitter_parsley_external_scanner_create (scanner.c lines 34-37):
calloc zero-initializes the state. -/
def tree_sitter_parsley_external_scanner_create : Scanner :=
  ⟨0⟩

/-- tree_sitter_parsley_external_scanner_serialize (scanner.c lines 46-53):
writes the one state byte and reports length 1. -/
def tree_sitter_parsley_external_scanner_serialize (s : Scanner) : List (Fin 256) :=
  [s.raw_text_mode]

/-- tree_sitter_parsley_external_scanner_deserialize (scanner.c lines 56-67):
reads the first byte when the buffer is nonempty, otherwise resets to 0. -/
def tree_sitter_parsley_external_scanner_deserialize (buffer : List (Fin 256)) : Scanner :=
  match buffer with
  | b :: _ => ⟨b⟩
  | [] => ⟨0⟩

/-- Tag-name terminator test (scanner.c lines 170-172, 196-198, 221-223,
251-253, 278-280): closing angle bracket, space, tab, newline or
carriage return. -/
def isTerm (c : Char) : Bool :=
  c == '>' || c == ' ' || c == '\t' || c == '\n' || c == '\r'

/-- Peek the lookahead character and test it with `isTerm`; at end of input
the lookahead is no terminator. -/
def peekTerm : List Char → Bool
  | [] => false
  | t :: _ => isTerm t

/-- The two-literal comparisons of scanner.c, e.g.
`lexer->lookahead == 't' || lexer->lookahead == 'T'`. -/
def ciEq (c lo up : Char) : Bool :=
  c == lo || c == up

/-- Advance over a run of letter pairs, each compared with `ciEq`, then peek
for a terminator.  The second component counts the characters consumed
(one per matched letter; a mismatch or end of input consumes nothing at the
failing letter, and the terminator is only peeked). -/
def matchTail : List (Char × Char) → List Char → Bool × Nat
  | [], l => (peekTerm l, 0)
  | _ :: _, [] => (false, 0)
  | p :: ps, c :: rest =>
    if ciEq c p.1 p.2 then
      let r := matchTail ps rest
      (r.1, r.2 + 1)
    else
      (false, 0)

/-- The style/script dispatch shared by both branches of scanner.c
(lines 186-235 inside the 'S' branch, lines 241-294 inside the 's' branch):
't'/'T' commits to matching "yle" then a terminator, otherwise 'c'/'C'
commits to matching "ript" then a terminator. -/
def styleScriptCheck : List Char → Bool × Nat
  | [] => (false, 0)
  | c :: rest =>
    if ciEq c 't' 'T' then
      let r := matchTail [('y', 'Y'), ('l', 'L'), ('e', 'E')] rest
      (r.1, r.2 + 1)
    else if ciEq c 'c' 'C' then
      let r := matchTail [('r', 'R'), ('i', 'I'), ('p', 'P'), ('t', 'T')] rest
      (r.1, r.2 + 1)
    else
      (false, 0)

/-- The closing-tag name match of scanner.c lines 162-295, entered after
"</" has been consumed.  Uppercase 'S' first tries the exact "QL" suffix
with a terminator; any failure inside that check falls through to the
style/script dispatch at the current lookahead (so e.g. "SQtyle>" matches).
Lowercase 's' goes straight to the style/script dispatch.  Returns whether a
recognized closing-tag name followed by a terminator was found, and how many
characters after the "/" were consumed. -/
def matchAfterSlash : List Char → Bool × Nat
  | [] => (false, 0)
  | c :: rest =>
    if c = 'S' then
      if rest.head? = some 'Q' then
        if rest.tail.head? = some 'L' then
          if peekTerm rest.tail.tail then
            (true, 3)
          else
            let r := styleScriptCheck rest.tail.tail
            (r.1, r.2 + 3)
        else
          let r := styleScriptCheck rest.tail
          (r.1, r.2 + 2)
      else
        let r := styleScriptCheck rest
        (r.1, r.2 + 1)
    else if c = 's' then
      let r := styleScriptCheck rest
      (r.1, r.2 + 1)
    else
      (false, 0)

/-- Result of one scanner invocation: the C return value (`handled`), the
`result_symbol` written before a successful return, and every position passed
to `lexer->mark_end` in order (the last one is the token's end boundary). -/
structure ScanOut where
  handled : Bool
  symbol : Option TokenType
  marks : List Nat
  deriving DecidableEq

/-- The token-end boundary the host reads: the last `mark_end` position. -/
def ScanOut.tokenEnd (o : ScanOut) : Option Nat :=
  o.marks.getLast?

/-- The while loop of scan_raw_text (scanner.c lines 116-322), indexed by
fuel.  `l` is the input remaining at the cursor, `pos` the cursor position
relative to the scan start, `hc` the `has_content` flag and `marks` the
`mark_end` positions recorded so far.  Each iteration either returns or
consumes at least one character, so fuel larger than `l.length` is enough
(`scanLoopF_fuel`). -/
def scanLoopF : Nat → List Char → Nat → Bool → List Nat → ScanOut
  | 0, _, _, _, marks => ⟨false, none, marks⟩
  | _ + 1, [], _, hc, marks =>
    if hc then ⟨true, some .rawText, marks⟩ else ⟨false, none, marks⟩
  | fuel + 1, c :: rest, pos, hc, marks =>
    if c = '@' then
      if rest.head? = some '\x7b' then
        if hc then
          ⟨true, some .rawText, marks ++ [pos]⟩
        else
          ⟨true, some .rawTextInterpolationStart, marks ++ [pos, pos + 2]⟩
      else
        scanLoopF fuel rest (pos + 1) true (marks ++ [pos, pos + 1])
    else if c = '<' then
      if rest.head? = some '/' then
        let r := matchAfterSlash rest.tail
        if r.1 = true then
          if hc then ⟨true, some .rawText, marks ++ [pos]⟩
          else ⟨false, none, marks ++ [pos]⟩
        else
          scanLoopF fuel (rest.tail.drop r.2) (pos + 2 + r.2) true
            (marks ++ [pos, pos + 2 + r.2])
      else
        scanLoopF fuel rest (pos + 1) true (marks ++ [pos, pos + 1])
    else
      scanLoopF fuel rest (pos + 1) true (marks ++ [pos + 1])

/-- The scan loop run with enough fuel for its input. -/
def runScan (l : List Char) (pos : Nat) (hc : Bool) (marks : List Nat) : ScanOut :=
  scanLoopF (l.length + 1) l pos hc marks

/-- scan_raw_text (scanner.c lines 105-323).  The `Scanner` argument is
received but never read by the C function. -/
def scan_raw_text (_scanner : Scanner) (input : List Char) : ScanOut :=
  runScan input 0 false []

/-- tree_sitter_parsley_external_scanner_scan (scanner.c lines 333-348):
dispatch on the valid-symbols flags, otherwise decline untouched. -/
def tree_sitter_parsley_external_scanner_scan
    (scanner : Scanner) (valid_symbols : TokenType → Bool)
    (input : List Char) : ScanOut :=
  if valid_symbols TokenType.rawText
      || valid_symbols TokenType.rawTextInterpolationStart then
    scan_raw_text scanner input
  else
    ⟨false, none, []⟩

/-- Whether the scan loop would consume the whole list as ordinary content,
reaching end of input without hitting the interpolation trigger or a
successful closing-tag match.  Mirrors the branch structure of `scanLoopF`. -/
def consumesAllF : Nat → List Char → Bool
  | 0, _ => false
  | _ + 1, [] => true
  | fuel + 1, c :: rest =>
    if c = '@' then
      if rest.head? = some '\x7b' then false
      else consumesAllF fuel rest
    else if c = '<' then
      if rest.head? = some '/' then
        let r := matchAfterSlash rest.tail
        if r.1 = true then false
        else consumesAllF fuel (rest.tail.drop r.2)
      else consumesAllF fuel rest
    else
      consumesAllF fuel rest

/-- `consumesAllF` with enough fuel. -/
def consumesAll (l : List Char) : Bool :=
  consumesAllF (l.length + 1) l

/-! ## Fuel irrelevance

Each loop iteration consumes at least one input character, so any fuel
strictly larger than the input length yields the same result. -/

theorem scanLoopF_fuel (f : Nat) : ∀ (g : Nat) (l : List Char) (pos : Nat) (hc : Bool)
    (marks : List Nat), l.length < f → l.length < g →
    scanLoopF f l pos hc marks = scanLoopF g l pos hc marks := by
  induction f with
  | zero => intro g l pos hc marks hf hg; omega
  | succ f ih =>
    intro g l pos hc marks hf hg
    cases g with
    | zero => omega
    | succ g =>
      cases l with
      | nil => rfl
      | cons c rest =>
        simp only [scanLoopF]
        split_ifs <;> first
          | rfl
          | (apply ih <;>
              simp only [List.length_drop, List.length_tail, List.length_cons] at hf hg ⊢ <;>
              omega)

theorem consumesAllF_fuel (f : Nat) : ∀ (g : Nat) (l : List Char),
    l.length < f → l.length < g →
    consumesAllF f l = consumesAllF g l := by
  induction f with
  | zero => intro g l hf hg; omega
  | succ f ih =>
    intro g l hf hg
    cases g with
    | zero => omega
    | succ g =>
      cases l with
      | nil => rfl
      | cons c rest =>
        simp only [consumesAllF]
        split_ifs <;> first
          | rfl
          | (apply ih <;>
              simp only [List.length_drop, List.length_tail, List.length_cons] at hf hg ⊢ <;>
              omega)

/-! ## Step lemmas for the scan loop -/

theorem runScan_nil (pos : Nat) (hc : Bool) (marks : List Nat) :
    runScan [] pos hc marks =
      if hc then ⟨true, some .rawText, marks⟩ else ⟨false, none, marks⟩ := rfl

theorem runScan_at_brace (rest : List Char) (pos : Nat) (hc : Bool) (marks : List Nat) :
    runScan ('@' :: '\x7b' :: rest) pos hc marks =
      if hc then ⟨true, some .rawText, marks ++ [pos]⟩
      else ⟨true, some .rawTextInterpolationStart, marks ++ [pos, pos + 2]⟩ := by
  simp [runScan, scanLoopF]

theorem runScan_at_other (rest : List Char) (pos : Nat) (hc : Bool) (marks : List Nat)
    (h : rest.head? ≠ some '\x7b') :
    runScan ('@' :: rest) pos hc marks =
      runScan rest (pos + 1) true (marks ++ [pos, pos + 1]) := by
  simp [runScan, scanLoopF, h]

theorem runScan_lt_slash (rest2 : List Char) (pos : Nat) (hc : Bool) (marks : List Nat) :
    runScan ('<' :: '/' :: rest2) pos hc marks =
      if (matchAfterSlash rest2).1 = true then
        if hc then ⟨true, some .rawText, marks ++ [pos]⟩
        else ⟨false, none, marks ++ [pos]⟩
      else
        runScan (rest2.drop (matchAfterSlash rest2).2)
          (pos + 2 + (matchAfterSlash rest2).2) true
          (marks ++ [pos, pos + 2 + (matchAfterSlash rest2).2]) := by
  have key : scanLoopF ((rest2.length + 2) + 1) ('<' :: '/' :: rest2) pos hc marks =
      if (matchAfterSlash rest2).1 = true then
        if hc then ⟨true, some .rawText, marks ++ [pos]⟩
        else ⟨false, none, marks ++ [pos]⟩
      else
        scanLoopF (rest2.length + 2) (rest2.drop (matchAfterSlash rest2).2)
          (pos + 2 + (matchAfterSlash rest2).2) true
          (marks ++ [pos, pos + 2 + (matchAfterSlash rest2).2]) := by
    simp only [scanLoopF]
    simp
  show scanLoopF ((rest2.length + 2) + 1) ('<' :: '/' :: rest2) pos hc marks = _
  rw [key]
  by_cases h : (matchAfterSlash rest2).1 = true
  · simp [h]
  · simp only [if_neg h]
    unfold runScan
    apply scanLoopF_fuel <;> simp only [List.length_drop] <;> omega

theorem runScan_lt_other (rest : List Char) (pos : Nat) (hc : Bool) (marks : List Nat)
    (h : rest.head? ≠ some '/') :
    runScan ('<' :: rest) pos hc marks =
      runScan rest (pos + 1) true (marks ++ [pos, pos + 1]) := by
  simp [runScan, scanLoopF, h]

theorem runScan_other (c : Char) (rest : List Char) (pos : Nat) (hc : Bool) (marks : List Nat)
    (h1 : c ≠ '@') (h2 : c ≠ '<') :
    runScan (c :: rest) pos hc marks =
      runScan rest (pos + 1) true (marks ++ [pos + 1]) := by
  simp [runScan, scanLoopF, h1, h2]

/-! ## Step lemmas for `consumesAll` -/

theorem consumesAll_nil : consumesAll [] = true := rfl

theorem consumesAll_at_brace (rest : List Char) :
    consumesAll ('@' :: '\x7b' :: rest) = false := by
  simp [consumesAll, consumesAllF]

theorem consumesAll_at_other (rest : List Char) (h : rest.head? ≠ some '\x7b') :
    consumesAll ('@' :: rest) = consumesAll rest := by
  simp [consumesAll, consumesAllF, h]

theorem consumesAll_lt_slash (rest2 : List Char) :
    consumesAll ('<' :: '/' :: rest2) =
      if (matchAfterSlash rest2).1 = true then false
      else consumesAll (rest2.drop (matchAfterSlash rest2).2) := by
  have key : consumesAllF ((rest2.length + 2) + 1) ('<' :: '/' :: rest2) =
      if (matchAfterSlash rest2).1 = true then false
      else consumesAllF (rest2.length + 2) (rest2.drop (matchAfterSlash rest2).2) := by
    simp only [consumesAllF]
    simp
  show consumesAllF ((rest2.length + 2) + 1) ('<' :: '/' :: rest2) = _
  rw [key]
  by_cases h : (matchAfterSlash rest2).1 = true
  · simp [h]
  · simp only [if_neg h]
    unfold consumesAll
    apply consumesAllF_fuel <;> simp only [List.length_drop] <;> omega

theorem consumesAll_lt_other (rest : List Char) (h : rest.head? ≠ some '/') :
    consumesAll ('<' :: rest) = consumesAll rest := by
  simp [consumesAll, consumesAllF, h]

theorem consumesAll_other (c : Char) (rest : List Char) (h1 : c ≠ '@') (h2 : c ≠ '<') :
    consumesAll (c :: rest) = consumesAll rest := by
  simp [consumesAll, consumesAllF, h1, h2]

/-! ## Shape lemmas for the closing-tag matcher -/

theorem matchTail_nil_pairs (l : List Char) : matchTail [] l = (peekTerm l, 0) := rfl

theorem matchTail_nil (p : Char × Char) (ps : List (Char × Char)) :
    matchTail (p :: ps) [] = (false, 0) := rfl

theorem matchTail_cons_eq (p : Char × Char) (ps : List (Char × Char)) (c : Char)
    (rest : List Char) (h : ciEq c p.1 p.2 = true) :
    matchTail (p :: ps) (c :: rest) =
      ((matchTail ps rest).1, (matchTail ps rest).2 + 1) := by
  simp [matchTail, h]

theorem matchTail_cons_ne (p : Char × Char) (ps : List (Char × Char)) (c : Char)
    (rest : List Char) (h : ciEq c p.1 p.2 = false) :
    matchTail (p :: ps) (c :: rest) = (false, 0) := by
  simp [matchTail, h]

theorem styleScriptCheck_nil : styleScriptCheck [] = (false, 0) := rfl

theorem styleScriptCheck_t (c : Char) (rest : List Char) (h : ciEq c 't' 'T' = true) :
    styleScriptCheck (c :: rest) =
      ((matchTail [('y', 'Y'), ('l', 'L'), ('e', 'E')] rest).1,
       (matchTail [('y', 'Y'), ('l', 'L'), ('e', 'E')] rest).2 + 1) := by
  simp [styleScriptCheck, h]

theorem styleScriptCheck_c (c : Char) (rest : List Char) (h1 : ciEq c 't' 'T' = false)
    (h2 : ciEq c 'c' 'C' = true) :
    styleScriptCheck (c :: rest) =
      ((matchTail [('r', 'R'), ('i', 'I'), ('p', 'P'), ('t', 'T')] rest).1,
       (matchTail [('r', 'R'), ('i', 'I'), ('p', 'P'), ('t', 'T')] rest).2 + 1) := by
  simp [styleScriptCheck, h1, h2]

theorem styleScriptCheck_none (c : Char) (rest : List Char) (h1 : ciEq c 't' 'T' = false)
    (h2 : ciEq c 'c' 'C' = false) :
    styleScriptCheck (c :: rest) = (false, 0) := by
  simp [styleScriptCheck, h1, h2]

theorem matchAfterSlash_nil : matchAfterSlash [] = (false, 0) := rfl

theorem matchAfterSlash_none (c : Char) (rest : List Char) (h1 : c ≠ 'S') (h2 : c ≠ 's') :
    matchAfterSlash (c :: rest) = (false, 0) := by
  simp [matchAfterSlash, h1, h2]

theorem matchAfterSlash_s (rest : List Char) :
    matchAfterSlash ('s' :: rest) =
      ((styleScriptCheck rest).1, (styleScriptCheck rest).2 + 1) := by
  simp [matchAfterSlash]

theorem matchAfterSlash_S_noQ (rest : List Char) (h : rest.head? ≠ some 'Q') :
    matchAfterSlash ('S' :: rest) =
      ((styleScriptCheck rest).1, (styleScriptCheck rest).2 + 1) := by
  simp [matchAfterSlash, h]

theorem matchAfterSlash_SQ_noL (rest2 : List Char) (h : rest2.head? ≠ some 'L') :
    matchAfterSlash ('S' :: 'Q' :: rest2) =
      ((styleScriptCheck rest2).1, (styleScriptCheck rest2).2 + 2) := by
  simp [matchAfterSlash, h]

theorem matchAfterSlash_SQL_term (rest3 : List Char) (h : peekTerm rest3 = true) :
    matchAfterSlash ('S' :: 'Q' :: 'L' :: rest3) = (true, 3) := by
  simp [matchAfterSlash, h]

theorem matchAfterSlash_SQL_noterm (rest3 : List Char) (h : peekTerm rest3 = false) :
    matchAfterSlash ('S' :: 'Q' :: 'L' :: rest3) =
      ((styleScriptCheck rest3).1, (styleScriptCheck rest3).2 + 3) := by
  simp [matchAfterSlash, h]

/-! ## The matcher consumes at most its input -/

theorem matchTail_le (ps : List (Char × Char)) : ∀ (l : List Char),
    (matchTail ps l).2 ≤ l.length := by
  induction ps with
  | nil => intro l; simp [matchTail_nil_pairs]
  | cons p ps ih =>
    intro l
    cases l with
    | nil => simp [matchTail_nil]
    | cons c rest =>
      by_cases h : ciEq c p.1 p.2 = true
      · rw [matchTail_cons_eq p ps c rest h]
        have := ih rest
        simp only [List.length_cons]
        omega
      · rw [matchTail_cons_ne p ps c rest (by simpa using h)]
        simp

theorem styleScriptCheck_le (l : List Char) : (styleScriptCheck l).2 ≤ l.length := by
  cases l with
  | nil => simp [styleScriptCheck_nil]
  | cons c rest =>
    by_cases h1 : ciEq c 't' 'T' = true
    · rw [styleScriptCheck_t c rest h1]
      have := matchTail_le [('y', 'Y'), ('l', 'L'), ('e', 'E')] rest
      simp only [List.length_cons]
      omega
    · by_cases h2 : ciEq c 'c' 'C' = true
      · rw [styleScriptCheck_c c rest (by simpa using h1) h2]
        have := matchTail_le [('r', 'R'), ('i', 'I'), ('p', 'P'), ('t', 'T')] rest
        simp only [List.length_cons]
        omega
      · rw [styleScriptCheck_none c rest (by simpa using h1) (by simpa using h2)]
        simp

theorem matchAfterSlash_le (l : List Char) : (matchAfterSlash l).2 ≤ l.length := by
  cases l with
  | nil => simp [matchAfterSlash_nil]
  | cons c rest =>
    by_cases hS : c = 'S'
    · subst hS
      cases rest with
      | nil =>
        rw [matchAfterSlash_S_noQ [] (by simp)]
        simp [styleScriptCheck_nil]
      | cons d rest2 =>
        by_cases hQ : d = 'Q'
        · subst hQ
          cases rest2 with
          | nil =>
            rw [matchAfterSlash_SQ_noL [] (by simp)]
            simp [styleScriptCheck_nil]
          | cons e rest3 =>
            by_cases hL : e = 'L'
            · subst hL
              by_cases hterm : peekTerm rest3 = true
              · rw [matchAfterSlash_SQL_term rest3 hterm]
                simp
              · rw [matchAfterSlash_SQL_noterm rest3 (by simpa using hterm)]
                have := styleScriptCheck_le rest3
                simp only [List.length_cons]
                omega
            · rw [matchAfterSlash_SQ_noL (e :: rest3) (by simp [hL])]
              have := styleScriptCheck_le (e :: rest3)
              simp only [List.length_cons] at this ⊢
              omega
        · rw [matchAfterSlash_S_noQ (d :: rest2) (by simp [hQ])]
          have := styleScriptCheck_le (d :: rest2)
          simp only [List.length_cons] at this ⊢
          omega
    · by_cases hs : c = 's'
      · subst hs
        rw [matchAfterSlash_s rest]
        have := styleScriptCheck_le rest
        simp only [List.length_cons]
        omega
      · rw [matchAfterSlash_none c rest hS hs]
        simp

/-! ## Boundary lemmas

A closing-tag examination that starts inside a pure-content prefix never
reads past a following `'<'` or `'@'` differently from end of input: that
character is no tag-name letter and no terminator, so the match result and
consumed count are unchanged by appending such a suffix. -/

theorem peekTerm_ext (x : Char) (hterm : isTerm x = false) (l r : List Char) :
    peekTerm (l ++ x :: r) = peekTerm l := by
  cases l with
  | nil => simpa [peekTerm] using hterm
  | cons c rest => simp [peekTerm]

theorem head?_append_ne (l r : List Char) (x y : Char) (hxy : x ≠ y)
    (h : l.head? ≠ some y) : (l ++ x :: r).head? ≠ some y := by
  cases l with
  | nil => simp [hxy]
  | cons c rest => simpa using h

theorem matchTail_ext (x : Char) (hterm : isTerm x = false) :
    ∀ (ps : List (Char × Char)), (∀ p ∈ ps, ciEq x p.1 p.2 = false) →
    ∀ (l r : List Char), matchTail ps (l ++ x :: r) = matchTail ps l := by
  intro ps
  induction ps with
  | nil =>
    intro _ l r
    simp [matchTail_nil_pairs, peekTerm_ext x hterm]
  | cons p ps ih =>
    intro hps l r
    cases l with
    | nil =>
      rw [List.nil_append, matchTail_nil,
        matchTail_cons_ne p ps x r (hps p (by simp))]
    | cons c rest =>
      by_cases h : ciEq c p.1 p.2 = true
      · rw [List.cons_append, matchTail_cons_eq p ps c _ h, matchTail_cons_eq p ps c rest h,
          ih (fun q hq => hps q (by simp [hq])) rest r]
      · rw [List.cons_append, matchTail_cons_ne p ps c _ (by simpa using h),
          matchTail_cons_ne p ps c rest (by simpa using h)]

theorem styleScriptCheck_ext (x : Char) (hterm : isTerm x = false)
    (ht : ciEq x 't' 'T' = false) (hc : ciEq x 'c' 'C' = false)
    (hyle : ∀ p ∈ [('y', 'Y'), ('l', 'L'), ('e', 'E')], ciEq x p.1 p.2 = false)
    (hript : ∀ p ∈ [('r', 'R'), ('i', 'I'), ('p', 'P'), ('t', 'T')], ciEq x p.1 p.2 = false)
    (l r : List Char) :
    styleScriptCheck (l ++ x :: r) = styleScriptCheck l := by
  cases l with
  | nil =>
    rw [List.nil_append, styleScriptCheck_nil, styleScriptCheck_none x r ht hc]
  | cons c rest =>
    by_cases h1 : ciEq c 't' 'T' = true
    · rw [List.cons_append, styleScriptCheck_t c _ h1, styleScriptCheck_t c rest h1,
        matchTail_ext x hterm _ hyle rest r]
    · by_cases h2 : ciEq c 'c' 'C' = true
      · rw [List.cons_append, styleScriptCheck_c c _ (by simpa using h1) h2,
          styleScriptCheck_c c rest (by simpa using h1) h2,
          matchTail_ext x hterm _ hript rest r]
      · rw [List.cons_append, styleScriptCheck_none c _ (by simpa using h1) (by simpa using h2),
          styleScriptCheck_none c rest (by simpa using h1) (by simpa using h2)]

theorem matchAfterSlash_ext (x : Char) (hx : x = '<' ∨ x = '@') (l r : List Char) :
    matchAfterSlash (l ++ x :: r) = matchAfterSlash l := by
  have hterm : isTerm x = false := by rcases hx with h | h <;> subst h <;> decide
  have hssc : ∀ (l1 r1 : List Char),
      styleScriptCheck (l1 ++ x :: r1) = styleScriptCheck l1 := by
    intro l1 r1
    apply styleScriptCheck_ext x hterm
    · rcases hx with h | h <;> subst h <;> decide
    · rcases hx with h | h <;> subst h <;> decide
    · rcases hx with h | h <;> subst h <;> decide
    · rcases hx with h | h <;> subst h <;> decide
  have hxS : x ≠ 'S' := by rcases hx with h | h <;> subst h <;> decide
  have hxs : x ≠ 's' := by rcases hx with h | h <;> subst h <;> decide
  have hxQ : x ≠ 'Q' := by rcases hx with h | h <;> subst h <;> decide
  have hxL : x ≠ 'L' := by rcases hx with h | h <;> subst h <;> decide
  cases l with
  | nil =>
    rw [List.nil_append, matchAfterSlash_nil, matchAfterSlash_none x r hxS hxs]
  | cons c l1 =>
    by_cases hS : c = 'S'
    · subst hS
      by_cases hq : l1.head? = some 'Q'
      · cases l1 with
        | nil => simp at hq
        | cons d l2 =>
          have hd : d = 'Q' := by simpa using hq
          subst hd
          by_cases hl : l2.head? = some 'L'
          · cases l2 with
            | nil => simp at hl
            | cons e l3 =>
              have he : e = 'L' := by simpa using hl
              subst he
              by_cases hp : peekTerm l3 = true
              · rw [List.cons_append, List.cons_append, List.cons_append,
                  matchAfterSlash_SQL_term l3 hp,
                  matchAfterSlash_SQL_term (l3 ++ x :: r)
                    (by rw [peekTerm_ext x hterm l3 r]; exact hp)]
              · rw [List.cons_append, List.cons_append, List.cons_append,
                  matchAfterSlash_SQL_noterm l3 (by simpa using hp),
                  matchAfterSlash_SQL_noterm (l3 ++ x :: r)
                    (by rw [peekTerm_ext x hterm l3 r]; simpa using hp),
                  hssc l3 r]
          · rw [List.cons_append, List.cons_append,
              matchAfterSlash_SQ_noL l2 hl,
              matchAfterSlash_SQ_noL (l2 ++ x :: r) (head?_append_ne l2 r x 'L' hxL hl),
              hssc l2 r]
      · rw [List.cons_append,
          matchAfterSlash_S_noQ l1 hq,
          matchAfterSlash_S_noQ (l1 ++ x :: r) (head?_append_ne l1 r x 'Q' hxQ hq),
          hssc l1 r]
    · by_cases hs : c = 's'
      · subst hs
        rw [List.cons_append, matchAfterSlash_s, matchAfterSlash_s, hssc l1 r]
      · rw [List.cons_append, matchAfterSlash_none c _ hS hs, matchAfterSlash_none c l1 hS hs]

/-! ## Scanning through pure content

If the loop would consume `cs` entirely as content, then on `cs ++ tail`
(where `tail` is empty or starts with `'<'` or `'@'`, the only characters a
trigger can start with) it steps through `cs`, arrives at `tail` with the
content flag set and the last recorded mark at the end of `cs`. -/

theorem runScan_append_pure (n : Nat) : ∀ (cs tail : List Char) (pos : Nat) (hc : Bool)
    (marks : List Nat), cs.length ≤ n → consumesAll cs = true →
    (∀ c, tail.head? = some c → c = '<' ∨ c = '@') →
    ∃ M, runScan (cs ++ tail) pos hc marks
        = runScan tail (pos + cs.length) (hc || !cs.isEmpty) M
      ∧ (cs = [] → M = marks)
      ∧ (cs ≠ [] → M.getLast? = some (pos + cs.length)) := by
  induction n with
  | zero =>
    intro cs tail pos hc marks hlen _ _
    have hnil : cs = [] := List.length_eq_zero.mp (Nat.le_zero.mp hlen)
    subst hnil
    exact ⟨marks, by simp, fun _ => rfl, fun h => absurd rfl h⟩
  | succ n ih =>
    intro cs tail pos hc marks hlen hpure htail
    have hhead : ∀ (l1 : List Char) (y : Char), y ≠ '<' → y ≠ '@' →
        l1.head? ≠ some y → (l1 ++ tail).head? ≠ some y := by
      intro l1 y hy1 hy2 h
      cases l1 with
      | nil =>
        cases tail with
        | nil => simp
        | cons t ts =>
          simp only [List.nil_append, List.head?_cons, ne_eq, Option.some.injEq]
          intro ht
          subst ht
          rcases htail t rfl with h2 | h2
          · exact hy1 h2
          · exact hy2 h2
      | cons d ds => simpa using h
    cases cs with
    | nil => exact ⟨marks, by simp, fun _ => rfl, fun h => absurd rfl h⟩
    | cons c cs1 =>
      by_cases hat : c = '@'
      · subst hat
        have hnb : cs1.head? ≠ some '\x7b' := by
          intro hb
          cases cs1 with
          | nil => simp at hb
          | cons d cs2 =>
            have hd : d = '\x7b' := by simpa using hb
            subst hd
            rw [consumesAll_at_brace cs2] at hpure
            simp at hpure
        have hnb2 : (cs1 ++ tail).head? ≠ some '\x7b' :=
          hhead cs1 '\x7b' (by decide) (by decide) hnb
        have hpure1 : consumesAll cs1 = true := by
          rw [consumesAll_at_other cs1 hnb] at hpure
          exact hpure
        have hlen1 : cs1.length ≤ n := by
          simp only [List.length_cons] at hlen
          omega
        obtain ⟨M, hM, hMnil, hMlast⟩ :=
          ih cs1 tail (pos + 1) true (marks ++ [pos, pos + 1]) hlen1 hpure1 htail
        refine ⟨M, ?_, fun h => by simp at h, fun _ => ?_⟩
        · rw [List.cons_append, runScan_at_other (cs1 ++ tail) pos hc marks hnb2, hM]
          have e1 : pos + 1 + cs1.length = pos + ('@' :: cs1).length := by
            simp only [List.length_cons]
            omega
          rw [e1]
          simp
        · by_cases h1 : cs1 = []
          · subst h1
            rw [hMnil rfl]
            simp
          · rw [hMlast h1]
            simp only [List.length_cons]
            congr 1
            omega
      · by_cases hlt : c = '<'
        · subst hlt
          by_cases hq : cs1.head? = some '/'
          · cases cs1 with
            | nil => simp at hq
            | cons d cs2 =>
              have hd : d = '/' := by simpa using hq
              subst hd
              have hmas : matchAfterSlash (cs2 ++ tail) = matchAfterSlash cs2 := by
                cases tail with
                | nil => rw [List.append_nil]
                | cons t ts => exact matchAfterSlash_ext t (htail t rfl) cs2 ts
              have hfail : (matchAfterSlash cs2).1 = false := by
                by_contra hcon
                rw [consumesAll_lt_slash cs2, if_pos (by simpa using hcon)] at hpure
                simp at hpure
              have hpure2 : consumesAll (cs2.drop (matchAfterSlash cs2).2) = true := by
                rw [consumesAll_lt_slash cs2, if_neg (by simp [hfail])] at hpure
                exact hpure
              have hle : (matchAfterSlash cs2).2 ≤ cs2.length := matchAfterSlash_le cs2
              have hdrop : (cs2 ++ tail).drop (matchAfterSlash cs2).2
                  = cs2.drop (matchAfterSlash cs2).2 ++ tail :=
                List.drop_append_of_le_length hle
              have hlen2 : (cs2.drop (matchAfterSlash cs2).2).length ≤ n := by
                simp only [List.length_drop]
                simp only [List.length_cons] at hlen
                omega
              obtain ⟨M, hM, hMnil, hMlast⟩ :=
                ih (cs2.drop (matchAfterSlash cs2).2) tail
                  (pos + 2 + (matchAfterSlash cs2).2) true
                  (marks ++ [pos, pos + 2 + (matchAfterSlash cs2).2]) hlen2 hpure2 htail
              refine ⟨M, ?_, fun h => by simp at h, fun _ => ?_⟩
              · rw [List.cons_append, List.cons_append,
                  runScan_lt_slash (cs2 ++ tail) pos hc marks, hmas,
                  if_neg (by simp [hfail]), hdrop, hM]
                have e1 : pos + 2 + (matchAfterSlash cs2).2
                    + (cs2.drop (matchAfterSlash cs2).2).length
                    = pos + ('<' :: '/' :: cs2).length := by
                  simp only [List.length_drop, List.length_cons]
                  omega
                rw [e1]
                simp
              · by_cases h1 : cs2.drop (matchAfterSlash cs2).2 = []
                · have heq : (matchAfterSlash cs2).2 = cs2.length := by
                    have := List.drop_eq_nil_iff.mp h1
                    omega
                  rw [hMnil h1]
                  have e2 : (marks ++ [pos, pos + 2 + (matchAfterSlash cs2).2]).getLast?
                      = some (pos + 2 + (matchAfterSlash cs2).2) := by simp
                  rw [e2, heq]
                  simp only [List.length_cons]
                  congr 1
                  omega
                · rw [hMlast h1]
                  simp only [List.length_drop, List.length_cons]
                  congr 1
                  omega
          · have hq2 : (cs1 ++ tail).head? ≠ some '/' :=
              hhead cs1 '/' (by decide) (by decide) hq
            have hpure1 : consumesAll cs1 = true := by
              rw [consumesAll_lt_other cs1 hq] at hpure
              exact hpure
            have hlen1 : cs1.length ≤ n := by
              simp only [List.length_cons] at hlen
              omega
            obtain ⟨M, hM, hMnil, hMlast⟩ :=
              ih cs1 tail (pos + 1) true (marks ++ [pos, pos + 1]) hlen1 hpure1 htail
            refine ⟨M, ?_, fun h => by simp at h, fun _ => ?_⟩
            · rw [List.cons_append, runScan_lt_other (cs1 ++ tail) pos hc marks hq2, hM]
              have e1 : pos + 1 + cs1.length = pos + ('<' :: cs1).length := by
                simp only [List.length_cons]
                omega
              rw [e1]
              simp
            · by_cases h1 : cs1 = []
              · subst h1
                rw [hMnil rfl]
                simp
              · rw [hMlast h1]
                simp only [List.length_cons]
                congr 1
                omega
        · have hpure1 : consumesAll cs1 = true := by
            rw [consumesAll_other c cs1 hat hlt] at hpure
            exact hpure
          have hlen1 : cs1.length ≤ n := by
            simp only [List.length_cons] at hlen
            omega
          obtain ⟨M, hM, hMnil, hMlast⟩ :=
            ih cs1 tail (pos + 1) true (marks ++ [pos + 1]) hlen1 hpure1 htail
          refine ⟨M, ?_, fun h => by simp at h, fun _ => ?_⟩
          · rw [List.cons_append, runScan_other c (cs1 ++ tail) pos hc marks hat hlt, hM]
            have e1 : pos + 1 + cs1.length = pos + (c :: cs1).length := by
              simp only [List.length_cons]
              omega
            rw [e1]
            simp
          · by_cases h1 : cs1 = []
            · subst h1
              rw [hMnil rfl]
              simp
            · rw [hMlast h1]
              simp only [List.length_cons]
              congr 1
              omega

/-! ## Result invariants

Once the content flag is set the loop always returns a token; a produced
symbol is always one of the two raw-text kinds; and a declined scan has
recorded no mark other than possibly the scan start. -/

theorem runScan_invariant (n : Nat) : ∀ (l : List Char) (pos : Nat) (hc : Bool)
    (marks : List Nat), l.length ≤ n →
    ((runScan l pos hc marks).handled = true →
        (runScan l pos hc marks).symbol = some .rawText ∨
        (runScan l pos hc marks).symbol = some .rawTextInterpolationStart)
    ∧ (hc = true → (runScan l pos hc marks).handled = true)
    ∧ ((runScan l pos hc marks).handled = false →
        (runScan l pos hc marks).symbol = none ∧
        ((runScan l pos hc marks).marks = marks
          ∨ (runScan l pos hc marks).marks = marks ++ [pos])) := by
  induction n with
  | zero =>
    intro l pos hc marks hlen
    have hnil : l = [] := List.length_eq_zero.mp (Nat.le_zero.mp hlen)
    subst hnil
    rw [runScan_nil]
    cases hc with
    | true => exact ⟨fun _ => Or.inl rfl, fun _ => rfl, fun h => by simp at h⟩
    | false => exact ⟨fun h => by simp at h, fun h => by simp at h, fun _ => ⟨rfl, Or.inl rfl⟩⟩
  | succ n ih =>
    intro l pos hc marks hlen
    cases l with
    | nil =>
      rw [runScan_nil]
      cases hc with
      | true => exact ⟨fun _ => Or.inl rfl, fun _ => rfl, fun h => by simp at h⟩
      | false => exact ⟨fun h => by simp at h, fun h => by simp at h, fun _ => ⟨rfl, Or.inl rfl⟩⟩
    | cons c rest =>
      have hlen1 : rest.length ≤ n := by
        simp only [List.length_cons] at hlen
        omega
      by_cases hat : c = '@'
      · subst hat
        by_cases hb : rest.head? = some '\x7b'
        · cases rest with
          | nil => simp at hb
          | cons d rest1 =>
            have hd : d = '\x7b' := by simpa using hb
            subst hd
            rw [runScan_at_brace]
            cases hc with
            | true => exact ⟨fun _ => Or.inl rfl, fun _ => rfl, fun h => by simp at h⟩
            | false => exact ⟨fun _ => Or.inr rfl, fun h => by simp at h, fun h => by simp at h⟩
        · rw [runScan_at_other rest pos hc marks hb]
          obtain ⟨i1, i2, _⟩ := ih rest (pos + 1) true (marks ++ [pos, pos + 1]) hlen1
          exact ⟨i1, fun _ => i2 rfl, fun h => absurd (i2 rfl) (by simp [h])⟩
      · by_cases hlt : c = '<'
        · subst hlt
          by_cases hq : rest.head? = some '/'
          · cases rest with
            | nil => simp at hq
            | cons d rest2 =>
              have hd : d = '/' := by simpa using hq
              subst hd
              rw [runScan_lt_slash]
              by_cases hm : (matchAfterSlash rest2).1 = true
              · rw [if_pos hm]
                cases hc with
                | true => exact ⟨fun _ => Or.inl rfl, fun _ => rfl, fun h => by simp at h⟩
                | false =>
                  exact ⟨fun h => by simp at h, fun h => by simp at h,
                    fun _ => ⟨rfl, Or.inr rfl⟩⟩
              · rw [if_neg hm]
                have hlen2 : (rest2.drop (matchAfterSlash rest2).2).length ≤ n := by
                  simp only [List.length_drop]
                  simp only [List.length_cons] at hlen
                  omega
                obtain ⟨i1, i2, _⟩ := ih (rest2.drop (matchAfterSlash rest2).2)
                  (pos + 2 + (matchAfterSlash rest2).2) true
                  (marks ++ [pos, pos + 2 + (matchAfterSlash rest2).2]) hlen2
                exact ⟨i1, fun _ => i2 rfl, fun h => absurd (i2 rfl) (by simp [h])⟩
          · rw [runScan_lt_other rest pos hc marks hq]
            obtain ⟨i1, i2, _⟩ := ih rest (pos + 1) true (marks ++ [pos, pos + 1]) hlen1
            exact ⟨i1, fun _ => i2 rfl, fun h => absurd (i2 rfl) (by simp [h])⟩
        · rw [runScan_other c rest pos hc marks hat hlt]
          obtain ⟨i1, i2, _⟩ := ih rest (pos + 1) true (marks ++ [pos + 1]) hlen1
          exact ⟨i1, fun _ => i2 rfl, fun h => absurd (i2 rfl) (by simp [h])⟩

/-! ## Terminator and matcher evaluation helpers -/

theorem isTerm_whitespace (c : Char) : isTerm c = (c == '>' || c.isWhitespace) := by
  rw [Bool.eq_iff_iff]
  simp [isTerm, Char.isWhitespace]
  tauto

theorem matchAfterSlash_style_end (c : Char) :
    matchAfterSlash ['s', 't', 'y', 'l', 'e', c] = (isTerm c, 5) := by
  rw [matchAfterSlash_s, styleScriptCheck_t _ _ (by decide),
    matchTail_cons_eq _ _ _ _ (by decide), matchTail_cons_eq _ _ _ _ (by decide),
    matchTail_cons_eq _ _ _ _ (by decide), matchTail_nil_pairs]
  simp [peekTerm]

theorem matchAfterSlash_script_end (c : Char) :
    matchAfterSlash ['s', 'c', 'r', 'i', 'p', 't', c] = (isTerm c, 6) := by
  rw [matchAfterSlash_s, styleScriptCheck_c _ _ (by decide) (by decide),
    matchTail_cons_eq _ _ _ _ (by decide), matchTail_cons_eq _ _ _ _ (by decide),
    matchTail_cons_eq _ _ _ _ (by decide), matchTail_cons_eq _ _ _ _ (by decide),
    matchTail_nil_pairs]
  simp [peekTerm]

theorem styleScriptCheck_fst_single (c : Char) : (styleScriptCheck [c]).1 = false := by
  by_cases h1 : ciEq c 't' 'T' = true
  · rw [styleScriptCheck_t c [] h1, matchTail_nil]
  · by_cases h2 : ciEq c 'c' 'C' = true
    · rw [styleScriptCheck_c c [] (by simpa using h1) h2, matchTail_nil]
    · rw [styleScriptCheck_none c [] (by simpa using h1) (by simpa using h2)]

theorem matchAfterSlash_SQL_end (c : Char) :
    (matchAfterSlash ['S', 'Q', 'L', c]).1 = isTerm c := by
  cases hI : isTerm c with
  | true =>
    rw [matchAfterSlash_SQL_term [c] (by simp [peekTerm, hI])]
  | false =>
    rw [matchAfterSlash_SQL_noterm [c] (by simp [peekTerm, hI])]
    simp [styleScriptCheck_fst_single]

theorem consumesAll_single (c : Char) : consumesAll [c] = true := by
  by_cases hat : c = '@'
  · subst hat
    rw [consumesAll_at_other [] (by simp)]
    rfl
  · by_cases hlt : c = '<'
    · subst hlt
      rw [consumesAll_lt_other [] (by simp)]
      rfl
    · rw [consumesAll_other c [] hat hlt]
      rfl

/-- The symbol of a raw-text scan is never the error sentinel: it is absent
on decline and one of the two raw-text kinds on success. -/
theorem scan_raw_text_symbol (s : Scanner) (input : List Char) :
    (scan_raw_text s input).symbol = none ∨
    (scan_raw_text s input).symbol = some TokenType.rawText ∨
    (scan_raw_text s input).symbol = some TokenType.rawTextInterpolationStart := by
  obtain ⟨i1, _, i3⟩ := runScan_invariant input.length input 0 false [] le_rfl
  show (runScan input 0 false []).symbol = none ∨ _ ∨ _
  cases hh : (runScan input 0 false []).handled
  · exact Or.inl (i3 hh).1
  · rcases i1 hh with h | h
    · exact Or.inr (Or.inl h)
    · exact Or.inr (Or.inr h)

/-! ## Claims -/

/-- Claim C1, counterexample to the claim as stated: the content
"x</style>" is nonempty and contains no interpolation trigger, and the input
is that content followed immediately by the correctly-terminated closing tag
"</style>"; yet the scan's single RawText token ends at position 1 (the
scanner stops at the first embedded closing-tag match), not at the content
length 9. -/
theorem claim_c1_counterexample :
    (scan_raw_text tree_sitter_parsley_external_scanner_create
        (['x', '<', '/', 's', 't', 'y', 'l', 'e', '>']
          ++ ['<', '/', 's', 't', 'y', 'l', 'e', '>'])).tokenEnd = some 1 ∧
    (scan_raw_text tree_sitter_parsley_external_scanner_create
        (['x', '<', '/', 's', 't', 'y', 'l', 'e', '>']
          ++ ['<', '/', 's', 't', 'y', 'l', 'e', '>'])).tokenEnd
      ≠ some (['x', '<', '/', 's', 't', 'y', 'l', 'e', '>'] : List Char).length := by
  constructor
  · decide
  · decide

/-- Claim C1 (amended): for every nonempty content that the scanner consumes
entirely as ordinary content (no interpolation trigger and no successful
closing-tag match inside it), followed immediately by "</" plus input on
which the closing-tag matcher succeeds (a recognized, correctly-terminated
closing tag), a single scan call emits exactly one RawText token whose
consumed span is exactly the content, leaving the closing tag unconsumed. -/
theorem claim_c1 (s : Scanner) (cs rest : List Char) (hne : cs ≠ [])
    (hpure : consumesAll cs = true) (hmatch : (matchAfterSlash rest).1 = true) :
    (scan_raw_text s (cs ++ '<' :: '/' :: rest)).handled = true ∧
    (scan_raw_text s (cs ++ '<' :: '/' :: rest)).symbol = some TokenType.rawText ∧
    (scan_raw_text s (cs ++ '<' :: '/' :: rest)).tokenEnd = some cs.length := by
  obtain ⟨M, hM, _, hMlast⟩ := runScan_append_pure cs.length cs ('<' :: '/' :: rest) 0 false []
    le_rfl hpure
    (by
      intro c h
      simp only [List.head?_cons, Option.some.injEq] at h
      exact Or.inl h.symm)
  have hemp : (false || !cs.isEmpty) = true := by
    cases cs with
    | nil => exact absurd rfl hne
    | cons a b => simp
  rw [hemp] at hM
  rw [runScan_lt_slash, if_pos hmatch, if_pos rfl] at hM
  have hsc : scan_raw_text s (cs ++ '<' :: '/' :: rest)
      = ⟨true, some TokenType.rawText, M ++ [0 + cs.length]⟩ := hM
  rw [hsc]
  refine ⟨rfl, rfl, ?_⟩
  show (M ++ [0 + cs.length]).getLast? = some cs.length
  simp

/-- Claim C1 witness: content "ab" followed by "</style>". -/
theorem claim_c1_witness :
    (scan_raw_text tree_sitter_parsley_external_scanner_create
        (['a', 'b'] ++ '<' :: '/' :: ['s', 't', 'y', 'l', 'e', '>'])).tokenEnd = some 2 :=
  (claim_c1 tree_sitter_parsley_external_scanner_create ['a', 'b'] ['s', 't', 'y', 'l', 'e', '>']
    (by decide) (by decide) (by decide)).2.2

/-- Claim C2: when the closing-tag matcher fails, the loop continues with the
entire examined sequence (the angle bracket, slash and matched letters)
counted as consumed content, resuming just after it; in particular, inside an
open region "a</div>b</style>" yields one RawText token spanning "a</div>b"
(end mark 8), and a following scan at "</style>" declines. -/
theorem claim_c2 :
    (∀ (rest2 : List Char) (pos : Nat) (hc : Bool) (marks : List Nat),
        (matchAfterSlash rest2).1 = false →
        runScan ('<' :: '/' :: rest2) pos hc marks
          = runScan (rest2.drop (matchAfterSlash rest2).2)
              (pos + 2 + (matchAfterSlash rest2).2) true
              (marks ++ [pos, pos + 2 + (matchAfterSlash rest2).2])) ∧
    scan_raw_text tree_sitter_parsley_external_scanner_create
        ['a', '<', '/', 'd', 'i', 'v', '>', 'b', '<', '/', 's', 't', 'y', 'l', 'e', '>']
      = ⟨true, some TokenType.rawText, [1, 1, 3, 4, 5, 6, 7, 8, 8]⟩ ∧
    (scan_raw_text tree_sitter_parsley_external_scanner_create
        ['a', '<', '/', 'd', 'i', 'v', '>', 'b', '<', '/', 's', 't', 'y', 'l', 'e', '>']).tokenEnd
      = some (['a', '<', '/', 'd', 'i', 'v', '>', 'b'] : List Char).length ∧
    scan_raw_text tree_sitter_parsley_external_scanner_create
        ['<', '/', 's', 't', 'y', 'l', 'e', '>'] = ⟨false, none, [0]⟩ := by
  refine ⟨?_, by decide, by decide, by decide⟩
  intro rest2 pos hc marks h
  rw [runScan_lt_slash, if_neg (by simp [h])]

/-- Claim C2 witness: the failed examination of "</div>" resumes scanning
with the examined bytes counted as content. -/
theorem claim_c2_witness :
    runScan ['<', '/', 'd', 'i', 'v', '>'] 0 false []
      = runScan ((['d', 'i', 'v', '>'] : List Char).drop
            (matchAfterSlash ['d', 'i', 'v', '>']).2)
          (0 + 2 + (matchAfterSlash ['d', 'i', 'v', '>']).2) true
          ([] ++ [0, 0 + 2 + (matchAfterSlash ['d', 'i', 'v', '>']).2]) :=
  claim_c2.1 ['d', 'i', 'v', '>'] 0 false [] (by decide)

/-- Claim C3: in any open raw-text region (any scanner state), "</STYLE>",
"</Style>" and "</style>" all terminate scanning after content "a" (RawText
token ending at mark 1, the closing tag left for the grammar), "</SQL>"
terminates likewise, while "</sql>" does not terminate: it is consumed as
ordinary content and the scan runs to end of input (token covers the whole
input). -/
theorem claim_c3 (s : Scanner) :
    scan_raw_text s ['a', '<', '/', 'S', 'T', 'Y', 'L', 'E', '>']
      = ⟨true, some TokenType.rawText, [1, 1]⟩ ∧
    scan_raw_text s ['a', '<', '/', 'S', 't', 'y', 'l', 'e', '>']
      = ⟨true, some TokenType.rawText, [1, 1]⟩ ∧
    scan_raw_text s ['a', '<', '/', 's', 't', 'y', 'l', 'e', '>']
      = ⟨true, some TokenType.rawText, [1, 1]⟩ ∧
    scan_raw_text s ['a', '<', '/', 'S', 'Q', 'L', '>']
      = ⟨true, some TokenType.rawText, [1, 1]⟩ ∧
    scan_raw_text s ['a', '<', '/', 's', 'q', 'l', '>']
      = ⟨true, some TokenType.rawText, [1, 1, 4, 5, 6, 7]⟩ ∧
    (scan_raw_text s ['a', '<', '/', 's', 'q', 'l', '>']).tokenEnd
      = some (['a', '<', '/', 's', 'q', 'l', '>'] : List Char).length := by
  refine ⟨?_, ?_, ?_, ?_, ?_, ?_⟩
  · show runScan ['a', '<', '/', 'S', 'T', 'Y', 'L', 'E', '>'] 0 false [] = _
    decide
  · show runScan ['a', '<', '/', 'S', 't', 'y', 'l', 'e', '>'] 0 false [] = _
    decide
  · show runScan ['a', '<', '/', 's', 't', 'y', 'l', 'e', '>'] 0 false [] = _
    decide
  · show runScan ['a', '<', '/', 'S', 'Q', 'L', '>'] 0 false [] = _
    decide
  · show runScan ['a', '<', '/', 's', 'q', 'l', '>'] 0 false [] = _
    decide
  · show (runScan ['a', '<', '/', 's', 'q', 'l', '>'] 0 false []).tokenEnd = _
    decide

/-- A nonempty input that the loop consumes entirely as content produces one
RawText token covering the whole input. -/
theorem scan_consumesAll (s : Scanner) (input : List Char) (hne : input ≠ [])
    (hpure : consumesAll input = true) :
    (scan_raw_text s input).handled = true ∧
    (scan_raw_text s input).symbol = some TokenType.rawText ∧
    (scan_raw_text s input).tokenEnd = some input.length := by
  obtain ⟨M, hM, _, hMlast⟩ := runScan_append_pure input.length input [] 0 false []
    le_rfl hpure (by intro c h; simp at h)
  have hemp : (false || !input.isEmpty) = true := by
    cases input with
    | nil => exact absurd rfl hne
    | cons a b => simp
  rw [List.append_nil, hemp, runScan_nil, if_pos rfl] at hM
  have hsc : scan_raw_text s input = ⟨true, some TokenType.rawText, M⟩ := hM
  rw [hsc]
  refine ⟨rfl, rfl, ?_⟩
  show M.getLast? = some input.length
  have := hMlast hne
  simpa using this

/-- Claim C4: a recognized closing-tag name counts as matched exactly when the
following character is the closing angle bracket or a whitespace character
(space, tab, line feed, carriage return — `Char.isWhitespace`); with any
other following character the sequence is treated as ordinary content (here:
the scan of "a</style" followed by such a character consumes everything up to
end of input as one RawText token). -/
theorem claim_c4 :
    (∀ c : Char, isTerm c = (c == '>' || c.isWhitespace)) ∧
    (∀ c : Char,
        (matchAfterSlash ['s', 't', 'y', 'l', 'e', c]).1 = (c == '>' || c.isWhitespace)) ∧
    (∀ c : Char,
        (matchAfterSlash ['s', 'c', 'r', 'i', 'p', 't', c]).1 = (c == '>' || c.isWhitespace)) ∧
    (∀ c : Char,
        (matchAfterSlash ['S', 'Q', 'L', c]).1 = (c == '>' || c.isWhitespace)) ∧
    (∀ (s : Scanner) (c : Char), (c == '>' || c.isWhitespace) = false →
        (scan_raw_text s ['a', '<', '/', 's', 't', 'y', 'l', 'e', c]).handled = true ∧
        (scan_raw_text s ['a', '<', '/', 's', 't', 'y', 'l', 'e', c]).symbol
          = some TokenType.rawText ∧
        (scan_raw_text s ['a', '<', '/', 's', 't', 'y', 'l', 'e', c]).tokenEnd = some 9) := by
  refine ⟨isTerm_whitespace, ?_, ?_, ?_, ?_⟩
  · intro c
    rw [matchAfterSlash_style_end]
    exact isTerm_whitespace c
  · intro c
    rw [matchAfterSlash_script_end]
    exact isTerm_whitespace c
  · intro c
    rw [matchAfterSlash_SQL_end]
    exact isTerm_whitespace c
  · intro s c hcw
    have hterm : isTerm c = false := by rw [isTerm_whitespace]; exact hcw
    have hpure : consumesAll ['a', '<', '/', 's', 't', 'y', 'l', 'e', c] = true := by
      rw [consumesAll_other 'a' _ (by decide) (by decide),
        consumesAll_lt_slash ['s', 't', 'y', 'l', 'e', c], matchAfterSlash_style_end]
      simp [hterm, consumesAll_single]
    exact scan_consumesAll s ['a', '<', '/', 's', 't', 'y', 'l', 'e', c] (by simp) hpure

/-- Claim C4 witness at the form-feed character, which is no terminator. -/
theorem claim_c4_witness :
    (scan_raw_text tree_sitter_parsley_external_scanner_create
        ['a', '<', '/', 's', 't', 'y', 'l', 'e', '\x0C']).handled = true ∧
    (scan_raw_text tree_sitter_parsley_external_scanner_create
        ['a', '<', '/', 's', 't', 'y', 'l', 'e', '\x0C']).symbol = some TokenType.rawText ∧
    (scan_raw_text tree_sitter_parsley_external_scanner_create
        ['a', '<', '/', 's', 't', 'y', 'l', 'e', '\x0C']).tokenEnd = some 9 :=
  claim_c4.2.2.2.2 tree_sitter_parsley_external_scanner_create '\x0C' (by decide)

/-- Claim C5: the interpolation trigger at the scan start with no preceding
content yields RawTextInterpolationStart consuming exactly the two trigger
characters (end mark 2); after nonempty pure content it yields a RawText
token ending exactly at the content length, leaving the trigger unconsumed
for the next scan call. -/
theorem claim_c5 :
    (∀ (s : Scanner) (rest : List Char),
        scan_raw_text s ('@' :: '\x7b' :: rest)
          = ⟨true, some TokenType.rawTextInterpolationStart, [0, 2]⟩) ∧
    (∀ (s : Scanner) (cs rest : List Char), cs ≠ [] → consumesAll cs = true →
        (scan_raw_text s (cs ++ '@' :: '\x7b' :: rest)).handled = true ∧
        (scan_raw_text s (cs ++ '@' :: '\x7b' :: rest)).symbol = some TokenType.rawText ∧
        (scan_raw_text s (cs ++ '@' :: '\x7b' :: rest)).tokenEnd = some cs.length) := by
  constructor
  · intro s rest
    show runScan ('@' :: '\x7b' :: rest) 0 false [] = _
    rw [runScan_at_brace]
    simp
  · intro s cs rest hne hpure
    obtain ⟨M, hM, _, _⟩ := runScan_append_pure cs.length cs ('@' :: '\x7b' :: rest) 0 false []
      le_rfl hpure
      (by
        intro c h
        simp only [List.head?_cons, Option.some.injEq] at h
        exact Or.inr h.symm)
    have hemp : (false || !cs.isEmpty) = true := by
      cases cs with
      | nil => exact absurd rfl hne
      | cons a b => simp
    rw [hemp] at hM
    rw [runScan_at_brace, if_pos rfl] at hM
    have hsc : scan_raw_text s (cs ++ '@' :: '\x7b' :: rest)
        = ⟨true, some TokenType.rawText, M ++ [0 + cs.length]⟩ := hM
    rw [hsc]
    refine ⟨rfl, rfl, ?_⟩
    show (M ++ [0 + cs.length]).getLast? = some cs.length
    simp

/-- Claim C5 witness: content "a" followed by the trigger. -/
theorem claim_c5_witness :
    (scan_raw_text tree_sitter_parsley_external_scanner_create
        (['a'] ++ '@' :: '\x7b' :: [])).tokenEnd = some 1 :=
  (claim_c5.2 tree_sitter_parsley_external_scanner_create ['a'] [] (by decide) (by decide)).2.2

/-- Claim C6: the raw-text scan result is identical for every value of the
persisted scanner state — the function never reads it, re-deriving the
closing-tag decision by lookahead — and consequently any of the three
recognized closing names terminates any open raw-text region. -/
theorem claim_c6 :
    (∀ (s1 s2 : Scanner) (input : List Char),
        scan_raw_text s1 input = scan_raw_text s2 input) ∧
    (∀ s : Scanner,
        scan_raw_text s ['a', '<', '/', 's', 't', 'y', 'l', 'e', '>']
          = ⟨true, some TokenType.rawText, [1, 1]⟩ ∧
        scan_raw_text s ['a', '<', '/', 's', 'c', 'r', 'i', 'p', 't', '>']
          = ⟨true, some TokenType.rawText, [1, 1]⟩ ∧
        scan_raw_text s ['a', '<', '/', 'S', 'Q', 'L', '>']
          = ⟨true, some TokenType.rawText, [1, 1]⟩) := by
  refine ⟨fun _ _ _ => rfl, fun s => ⟨?_, ?_, ?_⟩⟩
  · show runScan ['a', '<', '/', 's', 't', 'y', 'l', 'e', '>'] 0 false [] = _
    decide
  · show runScan ['a', '<', '/', 's', 'c', 'r', 'i', 'p', 't', '>'] 0 false [] = _
    decide
  · show runScan ['a', '<', '/', 'S', 'Q', 'L', '>'] 0 false [] = _
    decide

/-- Claim C7: state serialization round-trips for every state value, the
serialized form is exactly one byte, and deserializing an empty buffer yields
the freshly-created (zeroed) state rather than failing. -/
theorem claim_c7 :
    (∀ s : Scanner,
        tree_sitter_parsley_external_scanner_deserialize
          (tree_sitter_parsley_external_scanner_serialize s) = s) ∧
    (∀ s : Scanner, (tree_sitter_parsley_external_scanner_serialize s).length = 1) ∧
    tree_sitter_parsley_external_scanner_deserialize []
      = tree_sitter_parsley_external_scanner_create :=
  ⟨fun _ => rfl, fun _ => rfl, rfl⟩

/-- Claim C8: on decline no input counts as consumed — every mark recorded
during a declining scan equals the scan start position 0 — and a successful
scan's token kind is always one of the two fully determined raw-text kinds. -/
theorem claim_c8 (s : Scanner) (input : List Char) :
    ((scan_raw_text s input).handled = false →
        ∀ m ∈ (scan_raw_text s input).marks, m = 0) ∧
    ((scan_raw_text s input).handled = true →
        (scan_raw_text s input).symbol = some TokenType.rawText ∨
        (scan_raw_text s input).symbol = some TokenType.rawTextInterpolationStart) := by
  obtain ⟨i1, _, i3⟩ := runScan_invariant input.length input 0 false [] le_rfl
  constructor
  · intro h m hmem
    have h2 : (runScan input 0 false []).handled = false := h
    obtain ⟨_, hm⟩ := i3 h2
    have hmem2 : m ∈ (runScan input 0 false []).marks := hmem
    rcases hm with hm | hm
    · rw [hm] at hmem2
      simp at hmem2
    · rw [hm] at hmem2
      simpa using hmem2
  · intro h
    exact i1 h

/-- Claim C8 witness: a bare closing tag declines with only the start mark;
a plain character scans to a RawText token. -/
theorem claim_c8_witness :
    (∀ m ∈ (scan_raw_text tree_sitter_parsley_external_scanner_create
        ['<', '/', 'S', 'Q', 'L', '>']).marks, m = 0) ∧
    ((scan_raw_text tree_sitter_parsley_external_scanner_create ['a']).symbol
        = some TokenType.rawText ∨
      (scan_raw_text tree_sitter_parsley_external_scanner_create ['a']).symbol
        = some TokenType.rawTextInterpolationStart) :=
  ⟨(claim_c8 tree_sitter_parsley_external_scanner_create ['<', '/', 'S', 'Q', 'L', '>']).1
      (by decide),
   (claim_c8 tree_sitter_parsley_external_scanner_create ['a']).2 (by decide)⟩

/-- Claim C9: when neither raw-text kind is accepted the entry point declines
immediately with no marks; otherwise it returns the raw-text scanner's result
verbatim; and the reserved error-sentinel kind is never produced. -/
theorem claim_c9 (s : Scanner) (vs : TokenType → Bool) (input : List Char) :
    ((vs TokenType.rawText || vs TokenType.rawTextInterpolationStart) = false →
        tree_sitter_parsley_external_scanner_scan s vs input = ⟨false, none, []⟩) ∧
    ((vs TokenType.rawText || vs TokenType.rawTextInterpolationStart) = true →
        tree_sitter_parsley_external_scanner_scan s vs input = scan_raw_text s input) ∧
    (tree_sitter_parsley_external_scanner_scan s vs input).symbol
      ≠ some TokenType.errorSentinel := by
  refine ⟨?_, ?_, ?_⟩
  · intro h
    unfold tree_sitter_parsley_external_scanner_scan
    rw [h]
    simp
  · intro h
    unfold tree_sitter_parsley_external_scanner_scan
    rw [h]
    simp
  · cases h : (vs TokenType.rawText || vs TokenType.rawTextInterpolationStart) with
    | false =>
      have he : tree_sitter_parsley_external_scanner_scan s vs input = ⟨false, none, []⟩ := by
        unfold tree_sitter_parsley_external_scanner_scan
        rw [h]
        simp
      rw [he]
      simp
    | true =>
      have he : tree_sitter_parsley_external_scanner_scan s vs input
          = scan_raw_text s input := by
        unfold tree_sitter_parsley_external_scanner_scan
        rw [h]
        simp
      rw [he]
      rcases scan_raw_text_symbol s input with h2 | h2 | h2 <;> simp [h2]

/-- Claim C9 witness: with no accepted raw-text kind the controller declines
untouched; with an accepted kind it returns the raw-text scan verbatim. -/
theorem claim_c9_witness :
    tree_sitter_parsley_external_scanner_scan tree_sitter_parsley_external_scanner_create
        (fun _ => false) ['a'] = ⟨false, none, []⟩ ∧
    tree_sitter_parsley_external_scanner_scan tree_sitter_parsley_external_scanner_create
        (fun _ => true) ['a']
      = scan_raw_text tree_sitter_parsley_external_scanner_create ['a'] :=
  ⟨(claim_c9 tree_sitter_parsley_external_scanner_create (fun _ => false) ['a']).1 rfl,
   (claim_c9 tree_sitter_parsley_external_scanner_create (fun _ => true) ['a']).2.1 rfl⟩

/-- Claim C10: at end of input with zero accumulated content the scan
declines; a nonempty input consumed entirely as content (input exhausted
before any closing tag) produces exactly one final RawText token covering all
of it — never a fatal condition, only a handled token or a decline. -/
theorem claim_c10 (s : Scanner) :
    scan_raw_text s [] = ⟨false, none, []⟩ ∧
    (∀ input : List Char, input ≠ [] → consumesAll input = true →
        (scan_raw_text s input).handled = true ∧
        (scan_raw_text s input).symbol = some TokenType.rawText ∧
        (scan_raw_text s input).tokenEnd = some input.length) :=
  ⟨rfl, fun input hne hpure => scan_consumesAll s input hne hpure⟩

/-- Claim C10 witness: "abc" runs out of input and yields one RawText token
covering all three characters. -/
theorem claim_c10_witness :
    (scan_raw_text tree_sitter_parsley_external_scanner_create ['a', 'b', 'c']).tokenEnd
      = some 3 :=
  ((claim_c10 tree_sitter_parsley_external_scanner_create).2 ['a', 'b', 'c']
    (by decide) (by decide)).2.2
